import Mathlib

/-!
# Verification of `diff-format` (`src/main.rs`)

A shallow embedding of the core of the `diff-format` tool: a diff-scoped
lint filter. The tool builds a map from file paths to changed line ranges
(`generate_hunkmap`), parses `file:line` locations out of linter output
(`parse_lint_location` after `remove_ansi_colors`), and echoes exactly the
input lines whose location falls inside a changed range
(`is_number_in_sorted_ranges`), exiting 1 when any line matched.

Machine integers: the Rust code uses `u32` for line numbers and range
bounds and `usize` for binary-search indices. Indices are embedded as
`Nat` (the index arithmetic `low + (high - low) / 2` cannot overflow for
in-range bounds, so `Nat` is exact). Line numbers are embedded as `Nat`
understood as `u32` values; the only place `u32` overflow can occur is
the sum `new_start + new_lines` in `generate_hunkmap`, embedded with an
explicit `% 2^32` wrap, and `str::parse::<u32>`, embedded as a bound
check against `2^32`.

Loops that are not structurally recursive (the binary-search `while` loop
and the regex scans) are embedded with explicit fuel so that every
definition computes by kernel reduction; the fuel supplied at each call
site is proven (or evident) to be sufficient, and exhaustion is modelled
by the same `Option.none` that models a Rust panic.
-/

set_option maxHeartbeats 1000000

namespace DiffFormat

/-- Source `type HunkRange = (u32, u32)`: a changed-line span
`(new_start, new_start + new_lines)` in the new revision of a file. -/
abbrev HunkRange := Nat × Nat

/-- The hunk map `HashMap<String, Vec<HunkRange>>`, embedded as an
association list (only keyed lookup is ever performed on it, so the
bucket order of the hash map is irrelevant). -/
abbrev HunkMap := List (String × List HunkRange)

/-! ## `is_number_in_sorted_ranges` — binary search

```rust
fn is_number_in_sorted_ranges(ranges: &[(u32, u32)], number: u32) -> bool {
    let mut low = 0;
    let mut high = ranges.len();
    while low < high {
        let mid = low + (high - low) / 2;
        match (number >= ranges[mid].0, number <= ranges[mid].1) {
            (true, true) => return true,
            (true, false) => low = mid + 1,
            (false, _) => high = mid,
        }
    }
    false
}
```

`searchAux` is the loop; the `Option` result models panics: `none` is an
out-of-bounds `ranges[mid]` access (or fuel exhaustion, which
`searchAux_isSome` below proves unreachable for the fuel supplied). -/

def searchAux (ranges : List HunkRange) (number : Nat) :
    Nat → Nat → Nat → Option Bool
  | 0, low, high => if low < high then none else some false
  | fuel + 1, low, high =>
    if low < high then
      let mid := low + (high - low) / 2
      match ranges[mid]? with
      | none => none
      | some r =>
        if r.1 ≤ number then
          if number ≤ r.2 then some true
          else searchAux ranges number fuel (mid + 1) high
        else searchAux ranges number fuel low mid
    else some false

/-- The source function. `high - low` strictly decreases on every loop
iteration, so `ranges.length` units of fuel always suffice
(`is_number_in_sorted_ranges_isSome`). -/
def is_number_in_sorted_ranges (ranges : List HunkRange) (number : Nat) :
    Option Bool :=
  searchAux ranges number ranges.length 0 ranges.length

/-! ## `generate_hunkmap` -/

/-- Embedding of `git2::Delta`: the change kind of one file in a diff. -/
inductive Delta where
  | unmodified
  | added
  | deleted
  | modified
  | renamed
  | copied
  | ignored
  | untracked
  | typechange
  | unreadable
  | conflicted
deriving DecidableEq

/-- One per-file record of the diff, as exposed to the `foreach`
callbacks: the new-side path, the change kind (`file.status()`), and the
`(new_start, new_lines)` pair of each hunk in traversal order (both
`u32`, embedded as `Nat` values `< 2^32`). -/
structure FileDelta where
  path : String
  status : Delta
  hunks : List (Nat × Nat)
deriving DecidableEq

/-- Source `hunkmap.entry(path).or_insert_with(Vec::new).push(v)`: append `v`
to the vector at key `k`, creating the entry if absent. -/
def hmInsert (m : HunkMap) (k : String) (v : HunkRange) : HunkMap :=
  match m with
  | [] => [(k, [v])]
  | (k', vs) :: rest =>
    if k' = k then (k', vs ++ [v]) :: rest else (k', vs) :: hmInsert rest k v

/-! The source of `generate_hunkmap`:

```rust
fn generate_hunkmap(diff: &Diff) -> Result<HashMap<String, Vec<HunkRange>>> {
    let mut hunkmap = HashMap::new();
    diff.foreach(
        &mut |file, _| { info!(...); true },      // log only
        None,
        Some(&mut |file, hunk| match file.status() {
            Delta::Modified => {
                let path = file.new_file().path().unwrap().to_str().unwrap();
                let hunk_edges = (hunk.new_start(), hunk.new_start() + hunk.new_lines());
                hunkmap.entry(path.into()).or_insert_with(Vec::new).push(hunk_edges);
                true
            }
            _ => true,
        }),
        None,
    )?;
    Ok(hunkmap)
}
```
The file callback only logs, so the model folds over the hunk callback
invocations: for every hunk of every `Modified` file, in diff-traversal
order, push `(new_start, (new_start + new_lines) mod 2^32)` (the sum is
`u32` addition in the source). -/

/-- Source `(hunk.new_start(), hunk.new_start() + hunk.new_lines())`, in
`u32` arithmetic. -/
def hunkRangeOf (h : Nat × Nat) : HunkRange :=
  (h.1, (h.1 + h.2) % 4294967296)

/-- The work of the hunk callback for all hunks of one file of the diff. -/
def hunkStep (hm : HunkMap) (fd : FileDelta) : HunkMap :=
  match fd.status with
  | Delta.modified =>
    fd.hunks.foldl (fun hm' h => hmInsert hm' fd.path (hunkRangeOf h)) hm
  | _ => hm

def generate_hunkmap (diff : List FileDelta) : HunkMap :=
  diff.foldl hunkStep []

/-! ## `remove_ansi_colors`

```rust
fn remove_ansi_colors(text: &str) -> String {
    let re = Regex::new(r"\x1b\[[0-9;]*m").unwrap();
    re.replace_all(text, "").to_string()
}
```

`replace_all` removes every non-overlapping, leftmost-first occurrence of
`ESC [ [0-9;]* m`. Since the class `[0-9;]` never contains `m`, an
occurrence starting at a given `ESC` exists iff the maximal class run
after `ESC [` is followed by `m`. -/

/-- Match `[0-9;]* m` at the head of the list; return the remainder after
the `m` on success. -/
def stripBody : List Char → Option (List Char)
  | [] => none
  | c :: cs =>
    if c = 'm' then some cs
    else if c.isDigit ∨ c = ';' then stripBody cs
    else none

/-- Match `[ [0-9;]* m` at the head (the part of the escape after `ESC`);
return the remainder on success. -/
def stripEsc : List Char → Option (List Char)
  | [] => none
  | c :: cs => if c = '[' then stripBody cs else none

theorem stripBody_length {s t : List Char} (h : stripBody s = some t) :
    t.length ≤ s.length := by
  induction s with
  | nil => simp [stripBody] at h
  | cons c cs ih =>
    simp only [stripBody] at h
    split at h
    · cases h; simp
    · split at h
      · exact Nat.le_trans (ih h) (Nat.le_succ _)
      · cases h

theorem stripEsc_length {s t : List Char} (h : stripEsc s = some t) :
    t.length ≤ s.length := by
  cases s with
  | nil => simp [stripEsc] at h
  | cons c cs =>
    simp only [stripEsc] at h
    split at h
    · exact Nat.le_trans (stripBody_length h) (Nat.le_succ _)
    · cases h

/-- The `replace_all` scan, with fuel. Each removed escape consumes at
least the `ESC` character (`stripEsc_length`), so `s.length` fuel
suffices; on the sufficient fuel supplied by `remove_ansi_colors` the
fallback branch is unreachable (`removeAnsiAux_fuel`). -/
def removeAnsiAux : Nat → List Char → List Char
  | 0, s => s
  | _ + 1, [] => []
  | fuel + 1, c :: cs =>
    if c = '\x1b' then
      match stripEsc cs with
      | some tail => removeAnsiAux fuel tail
      | none => c :: removeAnsiAux fuel cs
    else c :: removeAnsiAux fuel cs

/-- The source function. -/
def remove_ansi_colors (text : String) : String :=
  String.mk (removeAnsiAux text.data.length text.data)

/-- The fuel supplied by `remove_ansi_colors` is sufficient: the result
is the same for every fuel at least the length of the text. -/
theorem removeAnsiAux_fuel :
    ∀ (fuel fuel' : Nat) (s : List Char), s.length ≤ fuel → s.length ≤ fuel' →
      removeAnsiAux fuel s = removeAnsiAux fuel' s := by
  intro fuel
  induction fuel with
  | zero =>
    intro fuel' s hs _
    have : s = [] := List.eq_nil_of_length_eq_zero (Nat.le_zero.mp hs)
    subst this
    cases fuel' <;> rfl
  | succ n ih =>
    intro fuel' s hs hs'
    match s, fuel' with
    | [], 0 => rfl
    | [], m + 1 => rfl
    | c :: cs, 0 => simp at hs'
    | c :: cs, m + 1 =>
      simp only [List.length_cons, Nat.succ_le_succ_iff] at hs hs'
      simp only [removeAnsiAux]
      split
      · cases hst : stripEsc cs with
        | none =>
          show c :: removeAnsiAux n cs = c :: removeAnsiAux m cs
          rw [ih m cs hs hs']
        | some tail =>
          have ht := stripEsc_length hst
          show removeAnsiAux n tail = removeAnsiAux m tail
          exact ih m tail (Nat.le_trans ht hs) (Nat.le_trans ht hs')
      · rw [ih m cs hs hs']

/-! ## `parse_lint_location`

```rust
let python_regex = Regex::new(r#"(.+?):(\d+)"#).expect(...);

fn parse_lint_location(line: &str, regex: &Regex) -> Option<(String, u32)> {
    regex.captures(line).and_then(|captures| {
        let filename = captures.get(1)?.as_str().to_string();
        let line_num = captures.get(2)?.as_str().parse().ok()?;
        Some((filename, line_num))
    })
}
```

The regex is always the fixed `python_regex` `(.+?):(\d+)` built in
`main`, so the embedding specializes to it. With leftmost-first
semantics, `captures` matches at the earliest start position `i`; the
lazy `.+?` makes group 1 the shortest non-empty run of non-newline
characters ending just before the earliest `':'` that is followed by a
digit, and the greedy `\d+` makes group 2 the maximal digit run after
that `':'`. (`\d` is embedded as an ASCII digit; the claims under
verification only involve ASCII input.) -/

/-- Split the maximal leading digit run (`\d+`, greedy) from the rest. -/
def grabDigits : List Char → List Char × List Char
  | [] => ([], [])
  | c :: cs =>
    if c.isDigit then
      let (d, r) := grabDigits cs
      (c :: d, r)
    else ([], c :: cs)

/-- Having matched at least one group-1 character, lazily extend group 1
up to the earliest `':'` followed by a digit; return the further group-1
characters and group 2. `.` does not match a newline, so a newline stops
the extension with no match at this start position. -/
def lazyRest : List Char → Option (List Char × List Char)
  | [] => none
  | c :: cs =>
    if c = ':' then
      match cs with
      | [] => none
      | d :: ds =>
        if d.isDigit then some ([], d :: (grabDigits ds).1)
        else (lazyRest cs).map fun p => (c :: p.1, p.2)
    else if c = '\n' then none
    else (lazyRest cs).map fun p => (c :: p.1, p.2)

/-- Try to match `(.+?):(\d+)` anchored at the head of the list: the
first character (which must not be a newline) starts group 1. -/
def tryAt : List Char → Option (List Char × List Char)
  | [] => none
  | c :: cs =>
    if c = '\n' then none
    else (lazyRest cs).map fun p => (c :: p.1, p.2)

/-- Embedding of `Regex::captures` with `(.+?):(\d+)`: the match at the leftmost
possible start position wins. Returns `(group 1, group 2)`. -/
def regexFind : List Char → Option (List Char × List Char)
  | [] => none
  | c :: cs =>
    match tryAt (c :: cs) with
    | some r => some r
    | none => regexFind cs

/-- Numeric value of an ASCII digit string. -/
def digitsVal (ds : List Char) : Nat :=
  ds.foldl (fun a c => a * 10 + (c.toNat - '0'.toNat)) 0

/-- The source function, specialized to `python_regex`. `parse::<u32>()`
on the digit run of group 2 succeeds exactly when its value fits in a
`u32`; on overflow the `?.ok()?` chain yields `None`. -/
def parse_lint_location (line : String) : Option (String × Nat) :=
  match regexFind line.data with
  | none => none
  | some (g1, g2) =>
    if digitsVal g2 < 4294967296 then some (String.mk g1, digitsVal g2)
    else none

/-! ## `main` — the filtering pipeline

```rust
let mut failed = false;
for line in stdin.lock().lines() {
    let line = line.expect("Could not read line from stdin");
    if let Some((filename, line_num)) =
        parse_lint_location(&remove_ansi_colors(&line), &python_regex)
    {
        if let Some(hunk_ranges) = file_hunks.get(&filename) {
            if is_number_in_sorted_ranges(hunk_ranges, line_num) {
                println!("{}", line);
                failed = true;
            }
        }
    }
}
if failed { process::exit(1); } else { Ok(()) }
```

Input is modelled as `List (Option String)`: `some l` is a line that
decoded as UTF-8, `none` a line on which `BufRead::lines` yields an
`InvalidData` error — on which `line.expect(...)` panics. `runPipeline`
returns `none` for a panic, and otherwise the emitted lines in order
together with the final `failed` flag. -/

/-- The body of the loop for one decoded line: the emitted line, if any.
(`is_number_in_sorted_ranges` never panics — `is_number_in_sorted_ranges_isSome`
below — so its `some true` result is the loop's `if` condition.) -/
def processLine (hm : HunkMap) (line : String) : Option String :=
  match parse_lint_location (remove_ansi_colors line) with
  | none => none
  | some (filename, line_num) =>
    match List.lookup filename hm with
    | none => none
    | some hunk_ranges =>
      if is_number_in_sorted_ranges hunk_ranges line_num = some true then
        some line
      else none

/-- The whole loop: emitted lines in input order and the `failed` flag;
`none` models the panic on a non-UTF-8 line. -/
def runPipeline (hm : HunkMap) : List (Option String) → Option (List String × Bool)
  | [] => some ([], false)
  | Option.none :: _ => none
  | some line :: rest =>
    match processLine hm line with
    | some out => (runPipeline hm rest).map fun p => (out :: p.1, true)
    | none => runPipeline hm rest

/-- The process exit status of a completed run: `process::exit(1)` when
`failed`, `Ok(())` (status 0) otherwise. -/
def mainExitCode (hm : HunkMap) (input : List (Option String)) : Option Nat :=
  (runPipeline hm input).map fun p => if p.2 then 1 else 0

end DiffFormat

namespace DiffFormat

theorem searchAux_zero (ranges : List HunkRange) (number low high : Nat) :
    searchAux ranges number 0 low high = if low < high then none else some false := rfl

theorem searchAux_stop (ranges : List HunkRange) (number fuel low high : Nat)
    (h : ¬ low < high) : searchAux ranges number fuel low high = some false := by
  cases fuel <;> simp [searchAux, h]

theorem searchAux_step (ranges : List HunkRange) (number fuel low high : Nat)
    {r : HunkRange} (hlt : low < high)
    (hr : ranges[low + (high - low) / 2]? = some r) :
    searchAux ranges number (fuel + 1) low high =
      if r.1 ≤ number then
        if number ≤ r.2 then some true
        else searchAux ranges number fuel (low + (high - low) / 2 + 1) high
      else searchAux ranges number fuel low (low + (high - low) / 2) := by
  simp only [searchAux, if_pos hlt, hr]

theorem searchAux_isSome (ranges : List HunkRange) (number : Nat) :
    ∀ (fuel low high : Nat), high ≤ ranges.length → high - low ≤ fuel →
      (searchAux ranges number fuel low high).isSome = true := by
  intro fuel
  induction fuel with
  | zero =>
    intro low high _ hfuel
    rw [searchAux_stop ranges number 0 low high (by omega)]
    rfl
  | succ n ih =>
    intro low high hlen hfuel
    by_cases hlt : low < high
    · have hmid : low + (high - low) / 2 < high := by omega
      have hmidlen : low + (high - low) / 2 < ranges.length := lt_of_lt_of_le hmid hlen
      rw [searchAux_step ranges number n low high hlt (List.getElem?_eq_getElem hmidlen)]
      split
      · split
        · rfl
        · exact ih _ _ hlen (by omega)
      · exact ih _ _ (le_of_lt hmidlen) (by omega)
    · rw [searchAux_stop ranges number _ low high hlt]; rfl

theorem searchAux_sound (ranges : List HunkRange) (number : Nat) :
    ∀ (fuel low high : Nat), searchAux ranges number fuel low high = some true →
      ∃ r ∈ ranges, r.1 ≤ number ∧ number ≤ r.2 := by
  intro fuel
  induction fuel with
  | zero =>
    intro low high h
    rw [searchAux_zero] at h
    split at h <;> cases h
  | succ n ih =>
    intro low high h
    by_cases hlt : low < high
    · cases hr : ranges[low + (high - low) / 2]? with
      | none =>
        simp only [searchAux, if_pos hlt, hr] at h
        cases h
      | some r =>
        rw [searchAux_step ranges number n low high hlt hr] at h
        split at h
        · split at h
          · exact ⟨r, List.getElem?_mem hr, by omega⟩
          · exact ih _ _ h
        · exact ih _ _ h
    · rw [searchAux_stop ranges number _ low high hlt] at h; cases h

theorem searchAux_complete (ranges : List HunkRange) (number : Nat)
    (hv : ∀ r ∈ ranges, r.1 ≤ r.2)
    (hs : ranges.Pairwise fun a b => a.2 < b.1) :
    ∀ (fuel low high : Nat), high ≤ ranges.length → high - low ≤ fuel →
      (∃ i, low ≤ i ∧ i < high ∧ ∃ h : i < ranges.length,
        ranges[i].1 ≤ number ∧ number ≤ ranges[i].2) →
      searchAux ranges number fuel low high = some true := by
  have hpw := List.pairwise_iff_getElem.mp hs
  intro fuel
  induction fuel with
  | zero =>
    intro low high _ hfuel ⟨i, hli, hih, _, _⟩
    omega
  | succ n ih =>
    intro low high hlen hfuel ⟨i, hli, hih, hilen, hc1, hc2⟩
    have hlt : low < high := by omega
    set mid := low + (high - low) / 2 with hmiddef
    have hmid : mid < high := by omega
    have hmidlow : low ≤ mid := by omega
    have hmidlen : mid < ranges.length := lt_of_lt_of_le hmid hlen
    rw [searchAux_step ranges number n low high hlt (List.getElem?_eq_getElem hmidlen)]
    by_cases h1 : ranges[mid].1 ≤ number
    · rw [if_pos h1]
      by_cases h2 : number ≤ ranges[mid].2
      · rw [if_pos h2]
      · rw [if_neg h2]
        -- the witness index must be to the right of mid
        have himid : mid < i := by
          rcases Nat.lt_trichotomy i mid with h | h | h
          · have := hpw i mid hilen hmidlen h
            omega
          · subst h; omega
          · exact h
        exact ih (mid + 1) high hlen (by omega) ⟨i, by omega, hih, hilen, hc1, hc2⟩
    · rw [if_neg h1]
      -- the witness index must be to the left of mid
      have himid : i < mid := by
        rcases Nat.lt_trichotomy i mid with h | h | h
        · exact h
        · subst h; omega
        · have hmv := hv ranges[mid] (List.getElem_mem hmidlen)
          have := hpw mid i hmidlen hilen h
          omega
      exact ih low mid (le_of_lt hmidlen) (by omega) ⟨i, hli, himid, hilen, hc1, hc2⟩

theorem is_number_in_sorted_ranges_isSome (ranges : List HunkRange) (number : Nat) :
    (is_number_in_sorted_ranges ranges number).isSome = true :=
  searchAux_isSome ranges number ranges.length 0 ranges.length le_rfl (by omega)

theorem contains_iff (ranges : List HunkRange) (number : Nat)
    (hv : ∀ r ∈ ranges, r.1 ≤ r.2)
    (hs : ranges.Pairwise fun a b => a.2 < b.1) :
    is_number_in_sorted_ranges ranges number = some true ↔
      ∃ r ∈ ranges, r.1 ≤ number ∧ number ≤ r.2 := by
  constructor
  · exact searchAux_sound ranges number ranges.length 0 ranges.length
  · intro ⟨r, hmem, hr1, hr2⟩
    obtain ⟨i, hilen, hieq⟩ := List.mem_iff_getElem.mp hmem
    exact searchAux_complete ranges number hv hs ranges.length 0 ranges.length le_rfl
      (by omega) ⟨i, Nat.zero_le i, hilen, hilen, by rw [hieq]; omega, by rw [hieq]; omega⟩

end DiffFormat

namespace DiffFormat

theorem lookup_cons_eq (k : String) (vs : List HunkRange) (rest : HunkMap)
    (p : String) :
    List.lookup p ((k, vs) :: rest) =
      if p = k then some vs else List.lookup p rest := by
  by_cases h : p = k
  · rw [List.lookup_cons, if_pos h, beq_iff_eq.mpr h]
  · rw [List.lookup_cons, if_neg h, beq_eq_false_iff_ne.mpr h]

theorem hmInsert_nil (k : String) (v : HunkRange) : hmInsert [] k v = [(k, [v])] :=
  rfl

theorem hmInsert_cons (k' : String) (vs : List HunkRange) (rest : HunkMap)
    (k : String) (v : HunkRange) :
    hmInsert ((k', vs) :: rest) k v =
      if k' = k then (k', vs ++ [v]) :: rest
      else (k', vs) :: hmInsert rest k v := rfl

/-- Append on optional entries: the value of a key after pushing `ys`
onto it, given its previous value (`none` = entry absent). -/
def oapp : Option (List HunkRange) → List HunkRange → Option (List HunkRange)
  | none, [] => none
  | none, ys => some ys
  | some xs, ys => some (xs ++ ys)

theorem oapp_assoc (o : Option (List HunkRange)) (xs ys : List HunkRange) :
    oapp (oapp o xs) ys = oapp o (xs ++ ys) := by
  cases o with
  | none =>
    cases xs with
    | nil => rfl
    | cons x xs' => simp [oapp]
  | some zs => simp [oapp]

theorem lookup_hmInsert (m : HunkMap) (k p : String) (v : HunkRange) :
    List.lookup p (hmInsert m k v) =
      if k = p then oapp (List.lookup p m) [v] else List.lookup p m := by
  induction m with
  | nil =>
    rw [hmInsert_nil, lookup_cons_eq]
    by_cases h : k = p
    · rw [if_pos h.symm, if_pos h]
      rfl
    · rw [if_neg (fun hh => h hh.symm), if_neg h]
  | cons e rest ih =>
    obtain ⟨k', vs⟩ := e
    rw [hmInsert_cons]
    by_cases hk : k' = k
    · rw [if_pos hk]
      simp only [lookup_cons_eq]
      by_cases hp : p = k'
      · have hkp : k = p := by rw [← hk]; exact hp.symm
        rw [if_pos hp, if_pos hkp, if_pos hp]
        rfl
      · have hkp : ¬ k = p := fun hc => hp ((hk.trans hc).symm)
        rw [if_neg hp, if_neg hkp, if_neg hp]
    · rw [if_neg hk]
      simp only [lookup_cons_eq]
      by_cases hp : p = k'
      · have hkp : ¬ k = p := fun hc => hk ((hc.trans hp).symm)
        rw [if_pos hp, if_neg hkp, if_pos hp]
      · rw [if_neg hp, if_neg hp, ih]

/-- The change-kind filter of the hunk callback: the ranges contributed
to key `p` by a diff, in traversal order. -/
def hunksFor (p : String) (diff : List FileDelta) : List HunkRange :=
  (diff.filter fun fd => decide (fd.status = Delta.modified ∧ fd.path = p)).flatMap
    fun fd => fd.hunks.map hunkRangeOf

theorem lookup_hunks_foldl (k p : String) :
    ∀ (hunks : List (Nat × Nat)) (m : HunkMap),
      List.lookup p (hunks.foldl (fun hm' h => hmInsert hm' k (hunkRangeOf h)) m) =
        if k = p then oapp (List.lookup p m) (hunks.map hunkRangeOf)
        else List.lookup p m := by
  intro hunks
  induction hunks with
  | nil =>
    intro m
    by_cases h : k = p
    · simp only [List.foldl_nil, List.map_nil, if_pos h]
      cases hl : List.lookup p m <;> simp [oapp]
    · simp [List.foldl_nil, if_neg h]
  | cons h hs ih =>
    intro m
    simp only [List.foldl_cons, List.map_cons, ih, lookup_hmInsert]
    by_cases hk : k = p
    · rw [if_pos hk, if_pos hk, if_pos hk, oapp_assoc]
      rfl
    · rw [if_neg hk, if_neg hk, if_neg hk]

theorem lookup_foldl_hunkStep (p : String) :
    ∀ (diff : List FileDelta) (m : HunkMap),
      List.lookup p (diff.foldl hunkStep m) =
        oapp (List.lookup p m) (hunksFor p diff) := by
  intro diff
  induction diff with
  | nil =>
    intro m
    simp only [List.foldl_nil, hunksFor, List.filter_nil, List.flatMap_nil]
    cases hl : List.lookup p m <;> simp [oapp]
  | cons fd rest ih =>
    intro m
    simp only [List.foldl_cons, ih]
    by_cases hst : fd.status = Delta.modified
    · have hstep : hunkStep m fd =
          fd.hunks.foldl (fun hm' h => hmInsert hm' fd.path (hunkRangeOf h)) m := by
        unfold hunkStep
        rw [hst]
      rw [hstep, lookup_hunks_foldl]
      by_cases hp : fd.path = p
      · rw [if_pos hp]
        have hfil : hunksFor p (fd :: rest) =
            fd.hunks.map hunkRangeOf ++ hunksFor p rest := by
          simp only [hunksFor, List.filter_cons, decide_eq_true_eq]
          rw [if_pos ⟨hst, hp⟩, List.flatMap_cons]
        rw [hfil, oapp_assoc]
      · rw [if_neg hp]
        have hfil : hunksFor p (fd :: rest) = hunksFor p rest := by
          simp only [hunksFor, List.filter_cons, decide_eq_true_eq]
          rw [if_neg (fun hc => hp hc.2)]
        rw [hfil]
    · have hstep : hunkStep m fd = m := by
        unfold hunkStep
        cases hd : fd.status
        case modified => exact absurd hd hst
        all_goals rfl
      have hfil : hunksFor p (fd :: rest) = hunksFor p rest := by
        simp only [hunksFor, List.filter_cons, decide_eq_true_eq]
        rw [if_neg (fun hc => hst hc.1)]
      rw [hstep, hfil]

/-- Lookups on the generated hunk map are exactly the modified files'
ranges in traversal order, with no entry when there are none. -/
theorem lookup_generate_hunkmap (p : String) (diff : List FileDelta) :
    List.lookup p (generate_hunkmap diff) =
      if hunksFor p diff = [] then none else some (hunksFor p diff) := by
  rw [generate_hunkmap, lookup_foldl_hunkStep]
  cases h : hunksFor p diff with
  | nil => rfl
  | cons x xs => rfl

end DiffFormat

namespace DiffFormat

theorem hunksFor_of_nodup (diff : List FileDelta) (fd : FileDelta)
    (hu : (diff.map FileDelta.path).Nodup) (hmem : fd ∈ diff) :
    hunksFor fd.path diff =
      if fd.status = Delta.modified then fd.hunks.map hunkRangeOf else [] := by
  induction diff with
  | nil => cases hmem
  | cons g rest ih =>
    simp only [List.map_cons, List.nodup_cons] at hu
    obtain ⟨hnot, hnd⟩ := hu
    rcases List.mem_cons.mp hmem with heq | hmem'
    · subst heq
      have hrest : rest.filter
          (fun x => decide (x.status = Delta.modified ∧ x.path = fd.path)) = [] := by
        refine List.filter_eq_nil_iff.mpr fun x hx => ?_
        simp only [decide_eq_true_eq]
        exact fun hc => hnot (hc.2 ▸ List.mem_map_of_mem FileDelta.path hx)
      by_cases hst : fd.status = Delta.modified
      · rw [if_pos hst]
        simp only [hunksFor, List.filter_cons, decide_eq_true_eq]
        rw [if_pos ⟨hst, trivial⟩, hrest]
        simp [List.flatMap_cons, List.flatMap_nil]
      · rw [if_neg hst]
        simp only [hunksFor, List.filter_cons, decide_eq_true_eq]
        rw [if_neg (fun hc => hst hc.1), hrest]
        simp [List.flatMap_nil]
    · have hgp : g.path ≠ fd.path := by
        intro hc
        exact hnot (hc ▸ List.mem_map_of_mem FileDelta.path hmem')
      have hstep : hunksFor fd.path (g :: rest) = hunksFor fd.path rest := by
        simp only [hunksFor, List.filter_cons, decide_eq_true_eq]
        rw [if_neg (fun hc => hgp hc.2)]
      rw [hstep]
      exact ih hnd hmem'

theorem lookup_mem {hm : HunkMap} {p : String} {rs : List HunkRange}
    (h : List.lookup p hm = some rs) : ∃ q, (q, rs) ∈ hm := by
  induction hm with
  | nil => cases h
  | cons e rest ih =>
    obtain ⟨k, vs⟩ := e
    rw [lookup_cons_eq] at h
    split at h
    · cases h
      exact ⟨k, List.mem_cons_self _ _⟩
    · obtain ⟨q, hq⟩ := ih h
      exact ⟨q, List.mem_cons_of_mem _ hq⟩

/-- Judgement written from the spec's words (for comparison with the
code's pipeline): the line's parsed location names a file present in the
hunk map, and the line number lies within some range of that file, upper
bound inclusive. -/
def specMatches (hm : HunkMap) (line : String) : Bool :=
  match parse_lint_location (remove_ansi_colors line) with
  | none => false
  | some (filename, line_num) =>
    match List.lookup filename hm with
    | none => false
    | some ranges => ranges.any fun r => r.1 ≤ line_num && line_num ≤ r.2

/-- Sortedness invariant of the spec's data model, per file of the map:
ranges are well-formed and pairwise disjoint in ascending order. -/
abbrev SortedMap (hm : HunkMap) : Prop :=
  ∀ e ∈ hm, (∀ r ∈ e.2, r.1 ≤ r.2) ∧ e.2.Pairwise fun a b => a.2 < b.1

theorem processLine_eq (hm : HunkMap) (line : String) (hs : SortedMap hm) :
    processLine hm line = if specMatches hm line then some line else none := by
  cases hp : parse_lint_location (remove_ansi_colors line) with
  | none =>
    have h1 : processLine hm line = none := by
      unfold processLine
      rw [hp]
    have h2 : specMatches hm line = false := by
      unfold specMatches
      rw [hp]
    rw [h1, h2]
    rfl
  | some loc =>
    obtain ⟨filename, line_num⟩ := loc
    have h1 : processLine hm line =
        match List.lookup filename hm with
        | none => none
        | some hunk_ranges =>
          if is_number_in_sorted_ranges hunk_ranges line_num = some true then
            some line
          else none := by
      unfold processLine
      rw [hp]
    have h2 : specMatches hm line =
        match List.lookup filename hm with
        | none => false
        | some ranges => ranges.any fun r => r.1 ≤ line_num && line_num ≤ r.2 := by
      unfold specMatches
      rw [hp]
    rw [h1, h2]
    cases hl : List.lookup filename hm with
    | none => rfl
    | some ranges =>
      show (if is_number_in_sorted_ranges ranges line_num = some true then
          some line else none) =
        if (ranges.any fun r => r.1 ≤ line_num && line_num ≤ r.2) = true then
          some line else none
      obtain ⟨q, hqmem⟩ := lookup_mem hl
      obtain ⟨hv, hpw⟩ := hs (q, ranges) hqmem
      by_cases hc : ∃ r ∈ ranges, r.1 ≤ line_num ∧ line_num ≤ r.2
      · have htrue : is_number_in_sorted_ranges ranges line_num = some true :=
          (contains_iff ranges line_num hv hpw).mpr hc
        have hany : (ranges.any fun r => r.1 ≤ line_num && line_num ≤ r.2) = true := by
          refine List.any_eq_true.mpr ?_
          obtain ⟨r, hr, hh1, hh2⟩ := hc
          exact ⟨r, hr, by simp [hh1, hh2]⟩
        simp [htrue, hany]
      · have hfalse : ¬ is_number_in_sorted_ranges ranges line_num = some true :=
          fun ht => hc ((contains_iff ranges line_num hv hpw).mp ht)
        have hany : (ranges.any fun r => r.1 ≤ line_num && line_num ≤ r.2) = false := by
          rw [← Bool.not_eq_true]
          intro ha
          obtain ⟨r, hr, hb⟩ := List.any_eq_true.mp ha
          simp only [Bool.and_eq_true, decide_eq_true_eq] at hb
          exact hc ⟨r, hr, hb⟩
        simp [hfalse, hany]

theorem runPipeline_filter (hm : HunkMap) (hs : SortedMap hm) :
    ∀ input : List String,
      runPipeline hm (input.map some) =
        some (input.filter (specMatches hm), input.any (specMatches hm)) := by
  intro input
  induction input with
  | nil => rfl
  | cons line rest ih =>
    simp only [List.map_cons, runPipeline, List.filter_cons, List.any_cons, ih]
    rw [processLine_eq hm line hs]
    by_cases h : specMatches hm line = true
    · rw [h, if_pos rfl]
      simp
    · rw [Bool.not_eq_true] at h
      rw [h]
      simp

theorem runPipeline_flag (hm : HunkMap) :
    ∀ (input : List (Option String)) (outs : List String) (flag : Bool),
      runPipeline hm input = some (outs, flag) → (flag = true ↔ outs ≠ []) := by
  intro input
  induction input with
  | nil =>
    intro outs flag h
    simp only [runPipeline, Option.some.injEq, Prod.mk.injEq] at h
    obtain ⟨h1, h2⟩ := h
    subst h1; subst h2
    simp
  | cons l rest ih =>
    intro outs flag h
    cases l with
    | none => cases h
    | some line =>
      simp only [runPipeline] at h
      cases hp : processLine hm line with
      | none =>
        rw [hp] at h
        exact ih outs flag h
      | some out =>
        rw [hp] at h
        cases hrest : runPipeline hm rest with
        | none => rw [hrest] at h; cases h
        | some p =>
          rw [hrest] at h
          simp only [Option.map_some', Option.some.injEq, Prod.mk.injEq] at h
          obtain ⟨h1, h2⟩ := h
          subst h1
          simp [← h2]

end DiffFormat

namespace DiffFormat

/-! ## The claims -/

/-- C1: for every list of ranges that is sorted ascending by start and
non-overlapping — well-formed `start ≤ end` spans, pairwise disjoint in
ascending order — and every number `n`, `is_number_in_sorted_ranges`
returns true iff some range `r` of the list satisfies
`r.start ≤ n ≤ r.end`; in particular, on the empty list it returns false
for every `n`. -/
theorem claim_C1 :
    (∀ (ranges : List HunkRange) (n : Nat),
      (∀ r ∈ ranges, r.1 ≤ r.2) →
      (ranges.Pairwise fun a b => a.2 < b.1) →
      (is_number_in_sorted_ranges ranges n = some true ↔
        ∃ r ∈ ranges, r.1 ≤ n ∧ n ≤ r.2)) ∧
    ∀ n : Nat, is_number_in_sorted_ranges [] n = some false :=
  ⟨fun ranges n hv hs => contains_iff ranges n hv hs, fun _ => rfl⟩

theorem claim_C1_witness :
    is_number_in_sorted_ranges [(1, 2), (5, 8)] 6 = some true ↔
      ∃ r ∈ [((1 : Nat), (2 : Nat)), (5, 8)], r.1 ≤ 6 ∧ 6 ≤ r.2 :=
  claim_C1.1 [(1, 2), (5, 8)] 6 (by decide) (by decide)

/-- C6: the containment query's upper bound is inclusive: on the single
range `(5, 8)` the queries `4, 5, 8, 9` yield `false, true, true, false`;
consequently a line number exactly equal to `new_start + new_lines` of a
hunk (here the hunk `(5, 3)`, queried at `5 + 3`) is considered in
range. -/
theorem claim_C6 :
    is_number_in_sorted_ranges [(5, 8)] 4 = some false ∧
    is_number_in_sorted_ranges [(5, 8)] 5 = some true ∧
    is_number_in_sorted_ranges [(5, 8)] 8 = some true ∧
    is_number_in_sorted_ranges [(5, 8)] 9 = some false ∧
    is_number_in_sorted_ranges [hunkRangeOf (5, 3)] (5 + 3) = some true :=
  ⟨rfl, rfl, rfl, rfl, rfl⟩

/-- C10: for every slice of ranges (sorted or not, possibly empty) and
every number, the binary search returns a boolean: it terminates, every
`ranges[mid]` access is in bounds, and it never panics. -/
theorem claim_C10 (ranges : List HunkRange) (n : Nat) :
    (is_number_in_sorted_ranges ranges n).isSome = true :=
  is_number_in_sorted_ranges_isSome ranges n

/-- C8: `generate_hunkmap` appends ranges in diff-traversal order without
sorting, and the binary-search contract then breaks silently: the
modified file with hunks `(10, 2), (1, 2)` produces the range list
`[(10, 12), (1, 3)]`, which is not sorted ascending by start, and the
query `11` — contained in the range `(10, 12)` — returns false. -/
theorem claim_C8 :
    List.lookup "a.py"
        (generate_hunkmap [⟨"a.py", Delta.modified, [(10, 2), (1, 2)]⟩]) =
      some [(10, 12), (1, 3)] ∧
    ¬ ([((10 : Nat), (12 : Nat)), (1, 3)].Pairwise fun a b => a.1 ≤ b.1) ∧
    ((10 : Nat) ≤ 11 ∧ (11 : Nat) ≤ 12) ∧
    is_number_in_sorted_ranges [(10, 12), (1, 3)] 11 = some false :=
  ⟨rfl, by decide, by decide, rfl⟩

/-- C3: `generate_hunkmap` maps each file of the diff whose change kind
is `Modified` to the list of ranges `(new_start, new_start + new_lines)`
of its hunks in order, keyed by the file's new-side path (no entry is
created when it has no hunks); a file of any other change kind
contributes no entry. -/
theorem claim_C3 (diff : List FileDelta) (fd : FileDelta)
    (hmem : fd ∈ diff) (hu : (diff.map FileDelta.path).Nodup)
    (hov : ∀ h ∈ fd.hunks, h.1 + h.2 < 4294967296) :
    (fd.status = Delta.modified →
      List.lookup fd.path (generate_hunkmap diff) =
        if fd.hunks = [] then none
        else some (fd.hunks.map fun h => (h.1, h.1 + h.2))) ∧
    (fd.status ≠ Delta.modified →
      List.lookup fd.path (generate_hunkmap diff) = none) := by
  have hchar := lookup_generate_hunkmap fd.path diff
  rw [hunksFor_of_nodup diff fd hu hmem] at hchar
  constructor
  · intro hst
    rw [if_pos hst] at hchar
    have hmapeq : fd.hunks.map hunkRangeOf =
        fd.hunks.map fun h => (h.1, h.1 + h.2) :=
      List.map_congr_left fun h hh => by
        unfold hunkRangeOf
        rw [Nat.mod_eq_of_lt (hov h hh)]
    rw [hmapeq] at hchar
    cases hhunks : fd.hunks with
    | nil =>
      rw [hhunks] at hchar
      simpa using hchar
    | cons x xs =>
      rw [hhunks] at hchar
      rw [if_neg (by simp)]
      simpa using hchar
  · intro hst
    rw [if_neg hst] at hchar
    simpa using hchar

theorem claim_C3_witness :
    List.lookup "a.py"
        (generate_hunkmap [⟨"a.py", Delta.modified, [(10, 3), (50, 1)]⟩,
          ⟨"b.py", Delta.added, [(1, 5)]⟩]) = some [(10, 13), (50, 51)] ∧
    List.lookup "b.py"
        (generate_hunkmap [⟨"a.py", Delta.modified, [(10, 3), (50, 1)]⟩,
          ⟨"b.py", Delta.added, [(1, 5)]⟩]) = none := by
  constructor
  · have h := (claim_C3
      [⟨"a.py", Delta.modified, [(10, 3), (50, 1)]⟩,
        ⟨"b.py", Delta.added, [(1, 5)]⟩]
      ⟨"a.py", Delta.modified, [(10, 3), (50, 1)]⟩
      (by decide) (by decide) (by decide)).1 rfl
    rw [h]
    decide
  · exact (claim_C3
      [⟨"a.py", Delta.modified, [(10, 3), (50, 1)]⟩,
        ⟨"b.py", Delta.added, [(1, 5)]⟩]
      ⟨"b.py", Delta.added, [(1, 5)]⟩
      (by decide) (by decide) (by decide)).2 (by decide)

end DiffFormat

namespace DiffFormat

/-- C2: for every hunk map satisfying the data model's per-file
sortedness invariant and every sequence of (UTF-8) input lines, the
pipeline's output is exactly the sublist of input lines whose parsed
location (after ANSI stripping) names a file present in the map with a
line number contained in that file's ranges; each emitted line is the
original line verbatim (un-stripped), one line per match, in input
order. -/
theorem claim_C2 (hm : HunkMap) (input : List String) (hs : SortedMap hm) :
    runPipeline hm (input.map some) =
      some (input.filter (specMatches hm), input.any (specMatches hm)) :=
  runPipeline_filter hm hs input

theorem claim_C2_witness :
    runPipeline [("a.py", [(10, 13)])]
        (["a.py:11: msg1", "a.py:20: msg2", "b.py:5: msg3"].map some) =
      some (["a.py:11: msg1"], true) := by
  have h := claim_C2 [("a.py", [(10, 13)])]
    ["a.py:11: msg1", "a.py:20: msg2", "b.py:5: msg3"] (by decide)
  rw [h]
  decide

/-- C4: the location parser, applied after ANSI stripping, captures the
first `path:digits` pair of the line and ignores later `:number` fields:
`"pysrc/main.py:753:89: E501 Line too long"` parses to
`("pysrc/main.py", 753)`; `"\x1b[31mfile.py:12: error\x1b[0m"` parses to
`("file.py", 12)` after stripping; `"Summary: 3 errors"`, which has no
colon-digit pattern, yields no location. -/
theorem claim_C4 :
    parse_lint_location
        (remove_ansi_colors "pysrc/main.py:753:89: E501 Line too long") =
      some ("pysrc/main.py", 753) ∧
    parse_lint_location (remove_ansi_colors "\x1b[31mfile.py:12: error\x1b[0m") =
      some ("file.py", 12) ∧
    parse_lint_location (remove_ansi_colors "Summary: 3 errors") = none := by
  refine ⟨?_, ?_, ?_⟩ <;> decide

/-- C5: for every run that completes after reading all input, the exit
status is 0 when no input line was emitted and 1 when at least one
was. -/
theorem claim_C5 (hm : HunkMap) (input : List (Option String))
    (outs : List String) (flag : Bool)
    (hrun : runPipeline hm input = some (outs, flag)) :
    mainExitCode hm input = some (if outs = [] then 0 else 1) := by
  have hiff := runPipeline_flag hm input outs flag hrun
  unfold mainExitCode
  rw [hrun]
  cases flag with
  | false =>
    have houts : outs = [] := by
      by_contra hne
      exact absurd (hiff.mpr hne) (by simp)
    rw [if_pos houts]
    rfl
  | true =>
    rw [if_neg (hiff.mp rfl)]
    rfl

theorem claim_C5_witness :
    mainExitCode [("a.py", [(10, 13)])] [some "a.py:11: msg1"] = some 1 ∧
    mainExitCode [("a.py", [(10, 13)])] [some "b.py:1: x"] = some 0 := by
  constructor
  · have h := claim_C5 [("a.py", [(10, 13)])] [some "a.py:11: msg1"]
      ["a.py:11: msg1"] true (by decide)
    rw [h]
    decide
  · have h := claim_C5 [("a.py", [(10, 13)])] [some "b.py:1: x"]
      [] false (by decide)
    rw [h]
    decide

/-- C7 as stated is false: an input line that is not valid UTF-8 is not
treated as "no match for that line only" — `line.expect(...)` panics, so
the run with such a line does not continue with the next line (here, with
an empty hunk map, dropping the invalid line would let the run complete,
but the run aborts instead). -/
theorem claim_C7_cex :
    ¬ ∀ (hm : HunkMap) (rest : List (Option String)),
        runPipeline hm (Option.none :: rest) = runPipeline hm rest := by
  intro h
  exact Option.noConfusion (h [] [])

/-- C7 (amended): a line whose matched line-number digits overflow
`u32` parsing yields no location and is treated as "no match" for that
line only — the pipeline continues with the next line; an input line that
is not valid UTF-8, however, is fatal: the pipeline panics. -/
theorem claim_C7 (line : String) (g1 g2 : List Char)
    (hfind : regexFind (remove_ansi_colors line).data = some (g1, g2))
    (hov : 4294967296 ≤ digitsVal g2) :
    parse_lint_location (remove_ansi_colors line) = none ∧
    (∀ (hm : HunkMap) (rest : List (Option String)),
      runPipeline hm (some line :: rest) = runPipeline hm rest) ∧
    (∀ (hm : HunkMap) (rest : List (Option String)),
      runPipeline hm (Option.none :: rest) = none) := by
  have hparse : parse_lint_location (remove_ansi_colors line) = none := by
    unfold parse_lint_location
    rw [hfind]
    show (if digitsVal g2 < 4294967296 then
        some (String.mk g1, digitsVal g2) else none) = none
    rw [if_neg (by omega)]
  refine ⟨hparse, ?_, fun hm rest => rfl⟩
  intro hm rest
  have hpl : processLine hm line = none := by
    unfold processLine
    rw [hparse]
  simp only [runPipeline, hpl]

theorem claim_C7_witness :
    parse_lint_location (remove_ansi_colors "a.py:4294967296: x") = none ∧
    runPipeline [("a.py", [(0, 4294967297)])] [some "a.py:4294967296: x"] =
      some ([], false) := by
  have h := claim_C7 "a.py:4294967296: x" "a.py".data "4294967296".data
    (by decide) (by decide)
  exact ⟨h.1, (h.2.1 [("a.py", [(0, 4294967297)])] []).trans rfl⟩

/-- C9 as stated is false: the parser does not enforce line numbers ≥ 1 —
the line `"a.py:0: x"` parses to the location `("a.py", 0)`. -/
theorem claim_C9_cex :
    ¬ ∀ (line f : String) (n : Nat),
        parse_lint_location line = some (f, n) → 1 ≤ n := by
  intro h
  exact absurd (h "a.py:0: x" "a.py" 0 (by decide)) (by decide)

/-- C9 (amended): every location returned by `parse_lint_location` has a
line number that is a valid `u32` (`n < 2^32`); the parser does not
guarantee `n ≥ 1` — `n` may be 0. -/
theorem claim_C9 (line f : String) (n : Nat)
    (h : parse_lint_location line = some (f, n)) : n < 4294967296 := by
  unfold parse_lint_location at h
  split at h
  · exact absurd h (by simp)
  · split at h
    · rename_i hlt
      simp only [Option.some.injEq, Prod.mk.injEq] at h
      obtain ⟨-, hn⟩ := h
      omega
    · exact absurd h (by simp)

theorem claim_C9_witness :
    parse_lint_location "a.py:12: x" = some ("a.py", 12) ∧ (12 : Nat) < 4294967296 :=
  ⟨by decide, claim_C9 "a.py:12: x" "a.py" 12 (by decide)⟩

end DiffFormat
